import Mathlib

/-!
Formal model of the field-mapping and note-assembly engine of
`qt/aqt/ai_generator.py`: the Note Assembler (`_create_note`,
`_assign_source_field`), the Source Formatter (`_format_source`), the
Preview Projector (`_display_field`), the Batch Selector (`_add_notes`,
`_on_add_success`) and the Model List Cache (`_populate_model_combo`,
`_on_refresh_models`).

Python dictionaries keyed by strings are modelled as association lists
(`List (String × String)`) with insertion-order semantics: assignment
updates an existing key in place or appends a fresh entry at the end,
`pop` removes the single entry holding the key, and `.values()` walks the
remaining entries in insertion order.  This matches CPython dict
behaviour for the operations the source uses.
-/

set_option autoImplicit false

/-- One generated field of a candidate (`ai_pb.GeneratedField`): a free-text
name and a value. -/
structure GeneratedField where
  name : String
  value : String
deriving DecidableEq, Repr

/-- Optional source attribution of a candidate
(`ai_pb.GeneratedNoteSource`): title, url and excerpt, each possibly the
empty string (proto3 string fields default to `""`). -/
structure GeneratedNoteSource where
  title : String
  url : String
  excerpt : String
deriving DecidableEq, Repr

/-- A generated flashcard candidate (`ai_pb.GeneratedNote`): an ordered
field sequence, optional attribution, and optional template/deck ids
(`0` means unset, matching proto3 integer defaults and the Python
truthiness tests `proto.note_type_id or ...`). -/
structure GeneratedNote where
  fields : List GeneratedField
  source : Option GeneratedNoteSource
  note_type_id : Nat
  deck_id : Nat
deriving DecidableEq, Repr

/-- Errors raised by `_create_note` (both are `AnkiError` in the source,
distinguished by their message: `error_missing_notetype` at line 652 and
`error_invalid_notetype` at line 660). -/
inductive AnkiError where
  | missingNotetype
  | invalidNotetype
deriving DecidableEq, Repr

/-- The collaborator state `_create_note` reads from the dialog and the
collection: the template directory (`mw.col.models.get`, as notetype id ↦
ordered slot names from `notetype["flds"]`), the dialog's effective
note-type id (`_effective_note_type_id()`, `0` when unset), the dialog's
current deck id (`_current_deck_id()`, `0` when unset) and the
collection's current deck (`mw.col.decks.get_current_id()`). -/
structure CollectionEnv where
  models : List (Nat × List String)
  effective_note_type_id : Nat
  current_deck_id : Nat
  collection_deck_id : Nat
deriving DecidableEq, Repr

/-- Lookup of a template by id (`mw.col.models.get(notetype_id)`),
returning its ordered slot names. -/
def models_get (env : CollectionEnv) (ntid : Nat) : Option (List String) :=
  (env.models.find? (fun p => p.1 == ntid)).map (·.2)

/-- Python `str.lower()`, modelled character-wise over the string's char
list (the source only ever lowers ASCII field names). -/
def lower (s : String) : String := String.mk (s.data.map Char.toLower)

/-- Python `str.strip()`: drop leading and trailing whitespace, modelled
over the string's char list. -/
def strip (s : String) : String :=
  String.mk (((s.data.dropWhile Char.isWhitespace).reverse.dropWhile
    Char.isWhitespace).reverse)

/-- Python dict read `d[k]` / `k in d`: the value of the entry holding
key `k`, if any.  Keys built by the code below are unique, so "first
entry" agrees with dict semantics. -/
def dict_get? : List (String × String) → String → Option String
  | [], _ => none
  | p :: rest, k => if p.1 = k then some p.2 else dict_get? rest k

/-- Python dict assignment `d[k] = v`: update an existing entry in place
(keeping its position) or append a new one at the end. -/
def dict_set : List (String × String) → String → String → List (String × String)
  | [], k, v => [(k, v)]
  | p :: rest, k, v => if p.1 = k then (k, v) :: rest else p :: dict_set rest k v

/-- Python `d.pop(k, "")`: remove the entry holding `k` and return its
value, or return `""` leaving the dict unchanged. -/
def dict_pop : List (String × String) → String → String × List (String × String)
  | [], _ => ("", [])
  | p :: rest, k =>
    if p.1 = k then (p.2, rest)
    else
      let r := dict_pop rest k
      (r.1, p :: r.2)

/-- The dict comprehension `{field.name.lower(): field.value for field in
proto.fields}` (lines 571 and 664): later entries with the same lowered
name overwrite earlier ones, per Python dict semantics. -/
def field_map (fields : List GeneratedField) : List (String × String) :=
  fields.foldl (fun d f => dict_set d (lower f.name) f.value) []

/-- The slot-filling loop of `_create_note` (lines 665-668): walk the
template's slots in order, popping `field_map` at each lowered slot name
(default `""`), producing the slot values in slot order together with the
unconsumed remainder of the map. -/
def fill_slots : List String → List (String × String) → List String × List (String × String)
  | [], fm => ([], fm)
  | fieldName :: rest, fm =>
    let pv := dict_pop fm (lower fieldName)
    let r := fill_slots rest pv.2
    (pv.1 :: r.1, r.2)

/-- Python's `next((idx for idx, field in enumerate(flds) if
field["name"].lower() == key), None)` and the early-returning search loop
of `_assign_source_field`: index of the first slot whose lowered name is
`key`. -/
def first_index_with (key : String) : List String → Option Nat
  | [] => none
  | name :: rest =>
    if lower name = key then some 0 else (first_index_with key rest).map (· + 1)

/-- Python `html.escape(s, quote=True)` (the source calls `escape` with
`quote=True` explicitly for urls and with the default, which is also
`quote=True`, elsewhere). -/
def escape (s : String) : String :=
  String.join (s.data.map (fun c =>
    if c = '&' then "&amp;"
    else if c = '<' then "&lt;"
    else if c = '>' then "&gt;"
    else if c = '"' then "&quot;"
    else if c = Char.ofNat 39 then "&#x27;"
    else String.singleton c))

/-- `_format_source` (lines 704-718): escaped excerpt first when truthy;
then an anchor of escaped url and escaped title when both truthy, else
the escaped url alone, else the escaped title alone; segments joined by
`"<br>"`. -/
def format_source (source : GeneratedNoteSource) : String :=
  let parts : List String := []
  let parts := if source.excerpt ≠ "" then parts ++ [escape source.excerpt] else parts
  let parts :=
    if source.url ≠ "" then
      if source.title ≠ "" then
        parts ++ ["<a href=\"" ++ escape source.url ++ "\">" ++ escape source.title ++ "</a>"]
      else parts ++ [escape source.url]
    else if source.title ≠ "" then parts ++ [escape source.title]
    else parts
  String.intercalate "<br>" parts

/-- `_assign_source_field` (lines 696-702): write `value` into the first
slot named `source` (case-insensitive); if none exists, replace the last
slot value by the strip of `last ++ "\n\n" ++ value`.  The fallback
indexes `note.fields[-1]`, which presumes at least one slot (Anki
notetypes always have one); on the impossible empty template the model
leaves the list unchanged. -/
def assign_source_field (flds : List String) (noteFields : List String) (value : String) :
    List String :=
  match first_index_with "source" flds with
  | some idx => noteFields.set idx value
  | none =>
    noteFields.set (noteFields.length - 1)
      (strip (noteFields.getD (noteFields.length - 1) "" ++ "\n\n" ++ value))

/-- The `if proto.source:` step of `_create_note` (lines 670-672): when
attribution is present, format it and assign it via
`_assign_source_field`; otherwise do nothing. -/
def apply_source (flds : List String) (noteFields : List String)
    (source : Option GeneratedNoteSource) : List String :=
  match source with
  | some s => assign_source_field flds noteFields (format_source s)
  | none => noteFields

/-- The overflow step of `_create_note` (lines 674-692): when unconsumed
fields remain and a slot named `back` exists, strip each remaining value,
drop the empty ones, join the rest with `"\n\n"`, and join that after the
stripped existing back value, skipping empty segments; otherwise leave
the slot values unchanged. -/
def apply_overflow (flds : List String) (noteFields : List String)
    (fm : List (String × String)) : List String :=
  if fm.isEmpty then noteFields
  else
    match first_index_with "back" flds with
    | none => noteFields
    | some back_index =>
      let extras := fm.filterMap (fun p => if strip p.2 ≠ "" then some (strip p.2) else none)
      if extras.isEmpty then noteFields
      else
        let segments := [strip (noteFields.getD back_index ""), String.intercalate "\n\n" extras]
        noteFields.set back_index
          (String.intercalate "\n\n" (segments.filter (· ≠ "")))

/-- `_create_note` (lines 649-694): resolve the effective template id
(candidate's own id when nonzero, else the dialog default; error when
zero or unknown), resolve the deck id (candidate's, else dialog current,
else collection current), fill the slots via the field map, apply the
source step, then the overflow step.  Returns the slot values in slot
order together with the destination deck. -/
def create_note (env : CollectionEnv) (proto : GeneratedNote) :
    Except AnkiError (List String × Nat) :=
  let notetype_id :=
    if proto.note_type_id ≠ 0 then proto.note_type_id else env.effective_note_type_id
  if notetype_id = 0 then .error .missingNotetype
  else
    let deck_id0 := if proto.deck_id ≠ 0 then proto.deck_id else env.current_deck_id
    let deck_id := if deck_id0 = 0 then env.collection_deck_id else deck_id0
    match models_get env notetype_id with
    | none => .error .invalidNotetype
    | some flds =>
      let fm := field_map proto.fields
      let filled := fill_slots flds fm
      let withSource := apply_source flds filled.1 proto.source
      let finalFields := apply_overflow flds withSource filled.2
      .ok (finalFields, deck_id)

/-- `sorted(set(indices), reverse=True)` (line 622): deduplicate, sort
ascending, reverse. -/
def unique_indices (indices : List Nat) : List Nat :=
  (indices.dedup.insertionSort (· ≤ ·)).reverse

/-- The request-building loop of `_add_notes` (lines 626-636): walk the
deduplicated indices, skip any index at or beyond the candidate count
(`continue`), abort with the first `_create_note` error, otherwise
collect one request (slot values and deck) per candidate in iteration
order. -/
def build_requests (env : CollectionEnv) (notes : List GeneratedNote) :
    List Nat → Except AnkiError (List (List String × Nat))
  | [] => .ok []
  | index :: rest =>
    match notes.get? index with
    | none => build_requests env notes rest
    | some proto =>
      match create_note env proto with
      | .error e => .error e
      | .ok req => (build_requests env notes rest).map (req :: ·)

/-- `_on_add_success` (lines 720-727): drop from the candidate list every
position whose index is in the submitted set; `_set_preview_notes` then
renumbers the survivors densely from zero, which the model expresses by
their positions in the returned list. -/
def on_add_success (indices : List Nat) (notes : List GeneratedNote) : List GeneratedNote :=
  (notes.enum.filter (fun p => decide (p.1 ∉ indices))).map Prod.snd

/-- Outcome of one `_add_notes` call: returned early on an empty
selection, aborted on a per-candidate assembly error (`showInfo` +
`return`), or submitted a batch of requests. -/
inductive AddNotesResult where
  | noop
  | failed (e : AnkiError)
  | submitted (requests : List (List String × Nat))
deriving DecidableEq, Repr

/-- `_add_notes` (lines 621-647) together with its success callback:
returns the outcome and the candidate list afterwards.  The early-return
and error paths leave the candidate list untouched (the only mutation in
the source sits in `_on_add_success`, which runs only on submission
success); the submitted case models a successful store call, applying
`_on_add_success`. -/
def add_notes (env : CollectionEnv) (notes : List GeneratedNote) (indices : List Nat) :
    AddNotesResult × List GeneratedNote :=
  let unique := unique_indices indices
  if unique.isEmpty then (.noop, notes)
  else
    match build_requests env notes unique with
    | .error e => (.failed e, notes)
    | .ok requests => (.submitted requests, on_add_success unique notes)

/-- Modelled from the spec: `strip_html` comes from `anki.utils`, which is
not part of this repository snapshot.  The Preview Projector contract
(spec §4.4) returns the matched field value itself, so the model takes it
as the identity; every statement about `_display_field` below concerns
which field is selected, not HTML stripping. -/
def strip_html (s : String) : String := s

/-- `_display_field` (lines 568-577): build the lowered-name lookup
(last write wins), return the stripped value of the first preferred name
present, else the stripped value of the candidate's first field, else
`""`. -/
def display_field (fields : List GeneratedField) (preferred_names : List String) : String :=
  let mapping := field_map fields
  match preferred_names.findSome? (fun n => dict_get? mapping n) with
  | some value => strip_html value
  | none =>
    match fields with
    | [] => ""
    | f :: _ => strip_html f.value

/-- The dedup loop of `_populate_model_combo` (lines 212-218): the `seen`
set always holds exactly the entries of `unique`, so the model keeps the
single list. -/
def unique_models_loop : List String → List String → List String
  | [], unique => unique
  | model :: rest, unique =>
    let trimmed := strip model
    if trimmed ≠ "" ∧ trimmed ∉ unique then unique_models_loop rest (unique ++ [trimmed])
    else unique_models_loop rest unique

/-- The deduplicated, trimmed model list shown in the combo
(`_populate_model_combo`, lines 212-223). -/
def unique_models (source : List String) : List String :=
  unique_models_loop source []

/-- The `on_success` path of `_on_refresh_models` (lines 259-266) as it
affects the combo: repopulate the item list from the fresh models,
restore the already-typed text (`setEditText(current_text or "")`), and
when that text is blank and the raw model list is nonempty adopt its
first entry (`combo.setEditText(models[0])`).  Returns (combo items,
combo text). -/
def on_refresh_models_success (models : List String) (current_text : String) :
    List String × String :=
  let unique := unique_models models
  let text := current_text
  let text := if strip text = "" ∧ models ≠ [] then models.headD "" else text
  (unique, text)

/-! Helper lemmas about the dict model. -/

theorem dict_pop_fst (d : List (String × String)) (k : String) :
    (dict_pop d k).1 = (dict_get? d k).getD "" := by
  induction d with
  | nil => rfl
  | cons p rest ih =>
    simp only [dict_pop, dict_get?]
    by_cases h : p.1 = k <;> simp [h, ih]

theorem dict_pop_snd_sublist (d : List (String × String)) (k : String) :
    (dict_pop d k).2.Sublist d := by
  induction d with
  | nil => simp [dict_pop]
  | cons p rest ih =>
    simp only [dict_pop]
    by_cases h : p.1 = k
    · simp [h]
    · simpa [h] using ih.cons₂ p

theorem dict_get?_pop_ne (d : List (String × String)) (k k' : String) (h : k' ≠ k) :
    dict_get? (dict_pop d k).2 k' = dict_get? d k' := by
  induction d with
  | nil => rfl
  | cons p rest ih =>
    by_cases hp : p.1 = k
    · have h1 : ¬ p.1 = k' := fun e => h (e.symm.trans hp)
      simp only [dict_pop, if_pos hp, dict_get?, if_neg h1]
    · simp only [dict_pop, if_neg hp, dict_get?]
      by_cases hp' : p.1 = k'
      · simp only [if_pos hp']
      · simp only [if_neg hp', ih]

theorem dict_get?_set (d : List (String × String)) (k v k' : String) :
    dict_get? (dict_set d k v) k' = if k' = k then some v else dict_get? d k' := by
  induction d with
  | nil =>
    by_cases h : k' = k
    · subst h
      simp [dict_set, dict_get?]
    · simp [dict_set, dict_get?, h, Ne.symm h]
  | cons p rest ih =>
    by_cases hp : p.1 = k
    · by_cases h : k' = k
      · subst h
        simp [dict_set, dict_get?, hp]
      · have h2 : ¬ p.1 = k' := fun e => h (e.symm.trans hp)
        simp [dict_set, dict_get?, hp, h, h2, Ne.symm h]
    · by_cases hp' : p.1 = k'
      · have hkk : ¬ k' = k := fun e => hp (hp'.trans e)
        simp [dict_set, dict_get?, hp, hp', hkk]
      · simp [dict_set, dict_get?, hp, hp', ih]

theorem dict_set_cons_eq (p : String × String) (rest : List (String × String))
    (k v : String) (hp : p.1 = k) : dict_set (p :: rest) k v = (k, v) :: rest := by
  simp [dict_set, hp]

theorem dict_set_cons_ne (p : String × String) (rest : List (String × String))
    (k v : String) (hp : ¬ p.1 = k) : dict_set (p :: rest) k v = p :: dict_set rest k v := by
  simp [dict_set, hp]

theorem mem_keys_dict_set (d : List (String × String)) (k v k' : String) :
    k' ∈ (dict_set d k v).map Prod.fst ↔ k' ∈ d.map Prod.fst ∨ k' = k := by
  induction d with
  | nil => simp [dict_set]
  | cons p rest ih =>
    by_cases hp : p.1 = k
    · rw [dict_set_cons_eq p rest k v hp]
      simp only [List.map_cons, List.mem_cons, hp]
      tauto
    · rw [dict_set_cons_ne p rest k v hp]
      simp only [List.map_cons, List.mem_cons, ih]
      tauto

theorem dict_set_keys_nodup (d : List (String × String)) (k v : String)
    (h : (d.map Prod.fst).Nodup) : ((dict_set d k v).map Prod.fst).Nodup := by
  induction d with
  | nil => simp [dict_set]
  | cons p rest ih =>
    simp only [List.map_cons, List.nodup_cons] at h
    by_cases hp : p.1 = k
    · rw [dict_set_cons_eq p rest k v hp]
      simp only [List.map_cons, List.nodup_cons]
      exact ⟨hp ▸ h.1, h.2⟩
    · rw [dict_set_cons_ne p rest k v hp]
      simp only [List.map_cons, List.nodup_cons]
      exact ⟨fun hm => ((mem_keys_dict_set rest k v p.1).1 hm).elim h.1 hp, ih h.2⟩

theorem field_map_foldl_get? (fs : List GeneratedField) :
    ∀ (d : List (String × String)) (k : String),
      dict_get? (fs.foldl (fun d f => dict_set d (lower f.name) f.value) d) k =
        match fs.reverse.find? (fun g => lower g.name == k) with
        | some g => some g.value
        | none => dict_get? d k := by
  induction fs with
  | nil => intro d k; rfl
  | cons f rest ih =>
    intro d k
    simp only [List.foldl_cons, List.reverse_cons, List.find?_append]
    rw [ih]
    cases hfind : rest.reverse.find? (fun g => lower g.name == k) with
    | some f' => simp [Option.or]
    | none =>
      simp only [Option.or]
      rw [dict_get?_set]
      by_cases hk : lower f.name = k
      · have hb : (lower f.name == k) = true := beq_iff_eq.mpr hk
        simp [List.find?, hb, hk.symm]
      · have hb : (lower f.name == k) = false := by simp [hk]
        have hkk : ¬ k = lower f.name := fun e => hk e.symm
        simp [List.find?, hb, hkk]

/-- Last write wins in the lowered-name lookup: the value recorded for a
key is the value of the last field whose lowered name equals it. -/
theorem field_map_get? (fields : List GeneratedField) (k : String) :
    dict_get? (field_map fields) k =
      (fields.reverse.find? (fun g => lower g.name == k)).map (·.value) := by
  rw [field_map, field_map_foldl_get? fields [] k]
  cases fields.reverse.find? (fun g => lower g.name == k) <;> rfl

theorem field_map_keys_nodup (fields : List GeneratedField) :
    ((field_map fields).map Prod.fst).Nodup := by
  have h : ∀ (fs : List GeneratedField) (d : List (String × String)),
      (d.map Prod.fst).Nodup →
      ((fs.foldl (fun d f => dict_set d (lower f.name) f.value) d).map Prod.fst).Nodup := by
    intro fs
    induction fs with
    | nil => intro d hd; exact hd
    | cons f rest ih =>
      intro d hd
      exact ih _ (dict_set_keys_nodup d (lower f.name) f.value hd)
  exact h fields [] (by simp)

theorem fill_slots_fst_length (flds : List String) (fm : List (String × String)) :
    (fill_slots flds fm).1.length = flds.length := by
  induction flds generalizing fm with
  | nil => rfl
  | cons n rest ih => simp [fill_slots, ih]

theorem fill_slots_snd_sublist (flds : List String) (fm : List (String × String)) :
    (fill_slots flds fm).2.Sublist fm := by
  induction flds generalizing fm with
  | nil => simp [fill_slots]
  | cons n rest ih =>
    simp only [fill_slots]
    exact (ih (dict_pop fm (lower n)).2).trans (dict_pop_snd_sublist fm (lower n))

theorem fill_slots_getD (flds : List String) (fm : List (String × String))
    (hnodup : (flds.map lower).Nodup) :
    ∀ i, i < flds.length →
      (fill_slots flds fm).1.getD i "" = (dict_get? fm (lower (flds.getD i ""))).getD "" := by
  induction flds generalizing fm with
  | nil => intro i hi; exact absurd hi (by simp)
  | cons n rest ih =>
    simp only [List.map_cons, List.nodup_cons] at hnodup
    intro i hi
    match i with
    | 0 =>
      simp only [fill_slots, List.getD_cons_zero]
      exact dict_pop_fst fm (lower n)
    | Nat.succ j =>
      simp only [fill_slots, List.getD_cons_succ]
      have hj : j < rest.length := by
        simpa [Nat.succ_lt_succ_iff] using hi
      rw [ih (dict_pop fm (lower n)).2 hnodup.2 j hj]
      have hmem : rest.getD j "" ∈ rest := by
        rw [List.getD_eq_getElem?_getD, List.getElem?_eq_getElem hj]
        exact List.getElem_mem hj
      have hne : lower (rest.getD j "") ≠ lower n := by
        intro e
        exact hnodup.1 (e ▸ List.mem_map_of_mem lower hmem)
      rw [dict_get?_pop_ne fm (lower n) _ hne]

theorem first_index_with_lt (key : String) (flds : List String) (i : Nat)
    (h : first_index_with key flds = some i) : i < flds.length := by
  induction flds generalizing i with
  | nil => exact absurd h (by simp [first_index_with])
  | cons n rest ih =>
    simp only [first_index_with] at h
    by_cases hn : lower n = key
    · simp only [if_pos hn, Option.some.injEq] at h
      simp only [List.length_cons]
      omega
    · simp only [if_neg hn] at h
      cases hrec : first_index_with key rest with
      | none => rw [hrec] at h; exact absurd h (by simp)
      | some j =>
        rw [hrec] at h
        simp only [Option.map_some', Option.some.injEq] at h
        have := ih j hrec
        simp only [List.length_cons]
        omega

theorem first_index_with_name (key : String) (flds : List String) (i : Nat)
    (h : first_index_with key flds = some i) : lower (flds.getD i "") = key := by
  induction flds generalizing i with
  | nil => exact absurd h (by simp [first_index_with])
  | cons n rest ih =>
    simp only [first_index_with] at h
    by_cases hn : lower n = key
    · simp only [if_pos hn, Option.some.injEq] at h
      subst h
      simpa using hn
    · simp only [if_neg hn] at h
      cases hrec : first_index_with key rest with
      | none => rw [hrec] at h; exact absurd h (by simp)
      | some j =>
        rw [hrec] at h
        simp only [Option.map_some', Option.some.injEq] at h
        subst h
        simpa using ih j hrec

theorem getD_set_self (l : List String) (i : Nat) (a : String) (h : i < l.length) :
    (l.set i a).getD i "" = a := by
  induction l generalizing i with
  | nil => exact absurd h (by simp)
  | cons b t ih =>
    match i with
    | 0 => rfl
    | Nat.succ j =>
      simp only [List.set_cons_succ, List.getD_cons_succ]
      exact ih j (by simpa [Nat.succ_lt_succ_iff] using h)

theorem getD_set_ne (l : List String) (i j : Nat) (a : String) (h : i ≠ j) :
    (l.set i a).getD j "" = l.getD j "" := by
  induction l generalizing i j with
  | nil => simp
  | cons b t ih =>
    match i, j with
    | 0, 0 => exact absurd rfl h
    | 0, Nat.succ j' => rfl
    | Nat.succ i', 0 => rfl
    | Nat.succ i', Nat.succ j' =>
      simp only [List.set_cons_succ, List.getD_cons_succ]
      exact ih i' j' (fun e => h (by omega))

theorem assign_source_field_length (flds noteFields : List String) (value : String) :
    (assign_source_field flds noteFields value).length = noteFields.length := by
  rw [assign_source_field]
  cases first_index_with "source" flds <;> simp

theorem apply_source_length (flds noteFields : List String)
    (source : Option GeneratedNoteSource) :
    (apply_source flds noteFields source).length = noteFields.length := by
  cases source with
  | none => rfl
  | some s => exact assign_source_field_length flds noteFields (format_source s)

theorem apply_overflow_length (flds noteFields : List String)
    (fm : List (String × String)) :
    (apply_overflow flds noteFields fm).length = noteFields.length := by
  rw [apply_overflow]
  by_cases hfm : fm.isEmpty = true
  · rw [if_pos hfm]
  · rw [if_neg hfm]
    cases first_index_with "back" flds with
    | none => rfl
    | some bi =>
      dsimp only
      by_cases hex :
          (fm.filterMap (fun p => if strip p.2 ≠ "" then some (strip p.2) else none)).isEmpty = true
      · rw [if_pos hex]
      · rw [if_neg hex]
        exact List.length_set noteFields bi _

theorem create_note_ok (env : CollectionEnv) (proto : GeneratedNote) (flds : List String)
    (hnt : (if proto.note_type_id ≠ 0 then proto.note_type_id else env.effective_note_type_id) ≠ 0)
    (hm : models_get env
        (if proto.note_type_id ≠ 0 then proto.note_type_id else env.effective_note_type_id) =
      some flds) :
    create_note env proto = .ok
      (apply_overflow flds
          (apply_source flds (fill_slots flds (field_map proto.fields)).1 proto.source)
          (fill_slots flds (field_map proto.fields)).2,
        if (if proto.deck_id ≠ 0 then proto.deck_id else env.current_deck_id) = 0 then
          env.collection_deck_id
        else if proto.deck_id ≠ 0 then proto.deck_id else env.current_deck_id) := by
  simp only [create_note]
  rw [if_neg hnt, hm]

theorem create_note_error (env : CollectionEnv) (proto : GeneratedNote)
    (h1 : proto.note_type_id = 0 ∨ models_get env proto.note_type_id = none)
    (h2 : env.effective_note_type_id = 0 ∨ models_get env env.effective_note_type_id = none) :
    ∃ e, create_note env proto = .error e := by
  simp only [create_note]
  by_cases hz : proto.note_type_id ≠ 0
  · rw [if_pos hz, if_neg hz]
    have hm : models_get env proto.note_type_id = none := by
      rcases h1 with h | h
      · exact absurd h hz
      · exact h
    rw [hm]
    exact ⟨.invalidNotetype, rfl⟩
  · rw [if_neg hz]
    by_cases he : env.effective_note_type_id = 0
    · rw [if_pos he]
      exact ⟨.missingNotetype, rfl⟩
    · rw [if_neg he]
      have hm : models_get env env.effective_note_type_id = none := by
        rcases h2 with h | h
        · exact absurd h he
        · exact h
      rw [hm]
      exact ⟨.invalidNotetype, rfl⟩

theorem build_requests_error (env : CollectionEnv) (notes : List GeneratedNote) (i : Nat)
    (proto : GeneratedNote) (hget : notes.get? i = some proto)
    (herr : ∃ e0, create_note env proto = .error e0) :
    ∀ l, i ∈ l → ∃ e, build_requests env notes l = .error e := by
  intro l
  induction l with
  | nil => intro h; exact absurd h (by simp)
  | cons j rest ih =>
    intro hmem
    simp only [build_requests]
    by_cases hij : j = i
    · subst hij
      rw [hget]
      obtain ⟨e0, he⟩ := herr
      dsimp only
      rw [he]
      exact ⟨e0, rfl⟩
    · have hmem' : i ∈ rest := by
        rcases List.mem_cons.mp hmem with h | h
        · exact absurd h.symm hij
        · exact h
      cases hg : notes.get? j with
      | none => exact ih hmem'
      | some p' =>
        dsimp only
        cases hc : create_note env p' with
        | error e => exact ⟨e, rfl⟩
        | ok req =>
          dsimp only
          obtain ⟨e, he⟩ := ih hmem'
          rw [he]
          exact ⟨e, rfl⟩

theorem build_requests_filter (env : CollectionEnv) (notes : List GeneratedNote) :
    ∀ l, build_requests env notes l =
      build_requests env notes (l.filter (fun i => decide (i < notes.length))) := by
  intro l
  induction l with
  | nil => rfl
  | cons j rest ih =>
    simp only [build_requests, List.filter_cons]
    cases hg : notes.get? j with
    | none =>
      have hlen : notes.length ≤ j := List.get?_eq_none.mp hg
      have hd : decide (j < notes.length) = false := decide_eq_false (by omega)
      rw [hd, if_neg Bool.false_ne_true]
      exact ih
    | some p =>
      have hj : j < notes.length := by
        by_contra hle
        rw [List.get?_eq_none.mpr (by omega)] at hg
        exact Option.noConfusion hg
      rw [decide_eq_true hj, if_pos rfl]
      simp only [build_requests]
      rw [hg]
      dsimp only
      cases create_note env p with
      | error e => rfl
      | ok req =>
        dsimp only
        rw [ih]

theorem mem_unique_indices (indices : List Nat) (i : Nat) :
    i ∈ unique_indices indices ↔ i ∈ indices := by
  rw [unique_indices, List.mem_reverse,
    (List.perm_insertionSort (· ≤ ·) indices.dedup).mem_iff]
  exact List.mem_dedup

theorem unique_indices_pairwise (indices : List Nat) :
    (unique_indices indices).Pairwise (· > ·) := by
  rw [unique_indices, List.pairwise_reverse]
  have hs : (indices.dedup.insertionSort (· ≤ ·)).Pairwise (· ≤ ·) :=
    List.sorted_insertionSort (· ≤ ·) indices.dedup
  have hn : (indices.dedup.insertionSort (· ≤ ·)).Pairwise (· ≠ ·) :=
    ((List.perm_insertionSort (· ≤ ·) indices.dedup).nodup_iff).mpr (List.nodup_dedup indices)
  exact (hs.and hn).imp (fun h => lt_of_le_of_ne h.1 h.2)

theorem filterMap_congr_mem {α β : Type} {f g : α → Option β} :
    ∀ {l : List α}, (∀ a ∈ l, f a = g a) → l.filterMap f = l.filterMap g := by
  intro l
  induction l with
  | nil => intro h; rfl
  | cons a t ih =>
    intro h
    simp only [List.filterMap_cons, h a (by simp)]
    cases g a with
    | none => exact ih (fun b hb => h b (by simp [hb]))
    | some b => rw [ih (fun b hb => h b (by simp [hb]))]

theorem enumFrom_filter_map_snd (idxs : List Nat) :
    ∀ (t : List GeneratedNote) (n : Nat),
      ((List.enumFrom n t).filter (fun p => decide (p.1 ∉ idxs))).map Prod.snd =
        ((List.range' n t.length).filter (fun i => decide (i ∉ idxs))).filterMap
          (fun i => t.get? (i - n)) := by
  intro t
  induction t with
  | nil => intro n; rfl
  | cons a t ih =>
    intro n
    have hcongr : ∀ (X : List Nat), (∀ i ∈ X, n + 1 ≤ i) →
        X.filterMap (fun i => (a :: t).get? (i - n)) =
          X.filterMap (fun i => t.get? (i - (n + 1))) := by
      intro X hX
      refine filterMap_congr_mem (fun i hi => ?_)
      have hge := hX i hi
      have hsub : i - n = (i - (n + 1)) + 1 := by omega
      rw [hsub, List.get?_cons_succ]
    have hmemX : ∀ i ∈ (List.range' (n + 1) t.length).filter (fun i => decide (i ∉ idxs)),
        n + 1 ≤ i := by
      intro i hi
      have := List.mem_range'_1.mp (List.mem_of_mem_filter hi)
      omega
    show ((((n, a) :: List.enumFrom (n + 1) t).filter (fun p => decide (p.1 ∉ idxs))).map
        Prod.snd) = _
    simp only [List.length_cons]
    rw [List.range'_succ]
    simp only [List.filter_cons]
    by_cases hq : n ∉ idxs
    · rw [decide_eq_true hq, if_pos rfl, if_pos rfl]
      simp only [List.map_cons, List.filterMap_cons]
      have hz : (a :: t).get? (n - n) = some a := by
        have : n - n = 0 := by omega
        rw [this]
        rfl
      rw [hz, ih (n + 1), hcongr _ hmemX]
    · rw [decide_eq_false hq, if_neg Bool.false_ne_true, if_neg Bool.false_ne_true]
      rw [ih (n + 1), hcongr _ hmemX]

/-- The survivors of `_on_add_success` are exactly the candidates at the
positions outside the submitted index set, in their original order, with
their new indices running densely from zero through the list positions. -/
theorem on_add_success_range (idxs : List Nat) (notes : List GeneratedNote) :
    on_add_success idxs notes =
      ((List.range notes.length).filter (fun i => decide (i ∉ idxs))).filterMap
        (fun i => notes.get? i) := by
  rw [on_add_success, List.enum, List.range_eq_range']
  rw [enumFrom_filter_map_snd idxs notes 0]
  refine filterMap_congr_mem (fun i _ => ?_)
  rw [Nat.sub_zero]

theorem on_add_success_sublist (idxs : List Nat) (notes : List GeneratedNote) :
    (on_add_success idxs notes).Sublist notes := by
  rw [on_add_success]
  have h1 : (notes.enum.filter (fun p => decide (p.1 ∉ idxs))).Sublist notes.enum :=
    List.filter_sublist notes.enum
  have h2 := h1.map Prod.snd
  rwa [List.enum_map_snd] at h2

theorem intercalate_pair (s a b : String) : String.intercalate s [a, b] = a ++ s ++ b := rfl

theorem intercalate_single (s a : String) : String.intercalate s [a] = a := rfl

theorem unique_models_loop_nodup :
    ∀ (source acc : List String), acc.Nodup → (unique_models_loop source acc).Nodup := by
  intro source
  induction source with
  | nil => intro acc h; exact h
  | cons model rest ih =>
    intro acc h
    simp only [unique_models_loop]
    by_cases hc : strip model ≠ "" ∧ strip model ∉ acc
    · rw [if_pos hc]
      have hperm : (acc ++ [strip model]).Perm (strip model :: acc) :=
        List.perm_append_singleton (strip model) acc
      exact ih _ (hperm.nodup_iff.mpr (List.nodup_cons.mpr ⟨hc.2, h⟩))
    · rw [if_neg hc]
      exact ih _ h

theorem unique_models_loop_acc_mem :
    ∀ (source acc : List String) (x : String), x ∈ acc → x ∈ unique_models_loop source acc := by
  intro source
  induction source with
  | nil => intro acc x h; exact h
  | cons model rest ih =>
    intro acc x h
    simp only [unique_models_loop]
    by_cases hc : strip model ≠ "" ∧ strip model ∉ acc
    · rw [if_pos hc]
      exact ih _ x (List.mem_append_left _ h)
    · rw [if_neg hc]
      exact ih _ x h

theorem unique_models_loop_mem :
    ∀ (source acc : List String) (x : String), x ∈ unique_models_loop source acc →
      x ∈ acc ∨ (x ≠ "" ∧ ∃ m ∈ source, x = strip m) := by
  intro source
  induction source with
  | nil => intro acc x h; exact Or.inl h
  | cons model rest ih =>
    intro acc x h
    simp only [unique_models_loop] at h
    by_cases hc : strip model ≠ "" ∧ strip model ∉ acc
    · rw [if_pos hc] at h
      rcases ih _ x h with hin | ⟨hne, m, hm, he⟩
      · rcases List.mem_append.mp hin with h1 | h1
        · exact Or.inl h1
        · have hx : x = strip model := by simpa using h1
          refine Or.inr ⟨by rw [hx]; exact hc.1, model, List.mem_cons_self model rest, hx⟩
      · exact Or.inr ⟨hne, m, List.mem_cons_of_mem _ hm, he⟩
    · rw [if_neg hc] at h
      rcases ih _ x h with hin | ⟨hne, m, hm, he⟩
      · exact Or.inl hin
      · exact Or.inr ⟨hne, m, List.mem_cons_of_mem _ hm, he⟩

theorem unique_models_loop_complete :
    ∀ (source acc : List String) (x : String), x ≠ "" →
      ((∃ m ∈ source, x = strip m) ∨ x ∈ acc) → x ∈ unique_models_loop source acc := by
  intro source
  induction source with
  | nil =>
    intro acc x hne h
    rcases h with ⟨m, hm, _⟩ | h
    · exact absurd hm (by simp)
    · exact h
  | cons model rest ih =>
    intro acc x hne h
    simp only [unique_models_loop]
    by_cases hc : strip model ≠ "" ∧ strip model ∉ acc
    · rw [if_pos hc]
      refine ih _ x hne ?_
      rcases h with ⟨m, hm, he⟩ | hacc
      · rcases List.mem_cons.mp hm with he' | hm'
        · rw [he'] at he
          exact Or.inr (by simp [he])
        · exact Or.inl ⟨m, hm', he⟩
      · exact Or.inr (List.mem_append_left _ hacc)
    · rw [if_neg hc]
      refine ih _ x hne ?_
      rcases h with ⟨m, hm, he⟩ | hacc
      · rcases List.mem_cons.mp hm with he' | hm'
        · rw [he'] at he
          have hmem : strip model ∈ acc := by
            by_contra hnin
            exact hc ⟨he ▸ hne, hnin⟩
          exact Or.inr (by rw [he]; exact hmem)
        · exact Or.inl ⟨m, hm', he⟩
      · exact Or.inr hacc

theorem unique_models_loop_sublist :
    ∀ (source acc : List String),
      (unique_models_loop source acc).Sublist (acc ++ source.map strip) := by
  intro source
  induction source with
  | nil =>
    intro acc
    simp only [unique_models_loop, List.map_nil, List.append_nil]
    exact List.Sublist.refl acc
  | cons model rest ih =>
    intro acc
    simp only [unique_models_loop, List.map_cons]
    by_cases hc : strip model ≠ "" ∧ strip model ∉ acc
    · rw [if_pos hc]
      have h1 := ih (acc ++ [strip model])
      rwa [List.append_assoc, List.singleton_append] at h1
    · rw [if_neg hc]
      refine (ih acc).trans ?_
      exact (List.append_sublist_append_left acc).mpr
        (List.sublist_cons_self (strip model) (rest.map strip))

/-- C1: assembling any candidate against any resolvable template yields a
record with exactly as many slot values as the template has slots, and
slot `i` of the output corresponds to the template slot at position `i`:
under distinct lowered slot names, the matcher places at position `i`
exactly the looked-up value of slot `i`'s lowered name (or `""`).  The
embedding is purely functional, so assembly cannot mutate the input
candidate. -/
theorem c1_record_shape :
    (∀ (env : CollectionEnv) (proto : GeneratedNote) (flds : List String)
        (r : List String × Nat),
        models_get env
            (if proto.note_type_id ≠ 0 then proto.note_type_id
              else env.effective_note_type_id) = some flds →
        create_note env proto = .ok r → r.1.length = flds.length)
  ∧ (∀ (flds : List String) (fm : List (String × String)) (i : Nat),
        (flds.map lower).Nodup → i < flds.length →
        (fill_slots flds fm).1.getD i "" =
          (dict_get? fm (lower (flds.getD i ""))).getD "") := by
  constructor
  · intro env proto flds r hm hok
    by_cases hnt : (if proto.note_type_id ≠ 0 then proto.note_type_id
        else env.effective_note_type_id) = 0
    · simp only [create_note, if_pos hnt] at hok
      exact absurd hok (by simp)
    · rw [create_note_ok env proto flds hnt hm] at hok
      injection hok with h
      rw [← h]
      dsimp only
      rw [apply_overflow_length, apply_source_length, fill_slots_fst_length]
  · intro flds fm i hn hi
    exact fill_slots_getD flds fm hn i hi

/-- Witness for C1 at a two-slot template and a one-field candidate. -/
theorem c1_record_shape_witness :
    (["F", ""] : List String).length = (["Front", "Back"] : List String).length ∧
      (fill_slots ["Front", "Back"] [("front", "F")]).1.getD 0 "" =
        (dict_get? [("front", "F")] (lower ((["Front", "Back"] : List String).getD 0 ""))).getD
          "" :=
  ⟨c1_record_shape.1 ⟨[(1, ["Front", "Back"])], 1, 2, 3⟩ ⟨[⟨"front", "F"⟩], none, 0, 0⟩
      ["Front", "Back"] (["F", ""], 2) rfl rfl,
    c1_record_shape.2 ["Front", "Back"] [("front", "F")] 0 (by decide) (by decide)⟩

/-- Counterexample to C2: the candidate holds the duplicate lowered name
`front` twice, with values `A` (first) and `B` (last).  The claim says the
first value `A` lands in the front slot and the remaining duplicate stays
unconsumed, overflowing into the back slot.  The code builds the lookup by
a dict comprehension, so the last value `B` wins, the duplicate is
collapsed, and nothing overflows: the assembled record is `["B", ""]`. -/
theorem c2_counterexample :
    create_note ⟨[(1, ["front", "back"])], 1, 5, 5⟩
        ⟨[⟨"front", "A"⟩, ⟨"Front", "B"⟩], none, 0, 0⟩ = .ok (["B", ""], 5) ∧
      ("B" : String) ≠ "A" ∧ ("" : String) ≠ "B" :=
  ⟨rfl, by decide, by decide⟩

/-- C2 as amended: when several fields share a lowered name, the lookup
keeps the value of the LAST such field; the lookup holds one entry per
lowered name (duplicates are collapsed while building it, before any
matching); and the unconsumed remainder after slot filling is a sublist
of the lookup, so a collapsed duplicate can never reappear in the
overflow set. -/
theorem c2_amended :
    (∀ (fields : List GeneratedField) (k : String),
        dict_get? (field_map fields) k =
          (fields.reverse.find? (fun g => lower g.name == k)).map (·.value))
  ∧ (∀ fields : List GeneratedField, ((field_map fields).map Prod.fst).Nodup)
  ∧ (∀ (flds : List String) (fm : List (String × String)),
        (fill_slots flds fm).2.Sublist fm) :=
  ⟨field_map_get?, field_map_keys_nodup, fill_slots_snd_sublist⟩

/-- Counterexample to C3: the candidate carries attribution whose three
parts are all empty, so the formatted attribution is `""`; the claim says
no slot may change, but `_create_note` still runs the assignment and
overwrites the matched `source` slot value `V` with the empty string. -/
theorem c3_counterexample :
    create_note ⟨[(1, ["Source"])], 1, 5, 5⟩
        ⟨[⟨"source", "V"⟩], some ⟨"", "", ""⟩, 0, 0⟩ = .ok ([""], 5) ∧
      format_source ⟨"", "", ""⟩ = "" ∧ ("" : String) ≠ "V" :=
  ⟨rfl, rfl, by decide⟩

/-- C3 as amended: whenever attribution is PRESENT (even if it formats to
the empty string), the formatted value is written into the first slot
named `source`, overwriting whatever was matched there; with no `source`
slot the formatted value is appended to the last slot as
`strip (last ++ blank-line ++ formatted)`, i.e. the strip happens after
the concatenation, not before; absent attribution changes nothing. -/
theorem c3_amended :
    (∀ (env : CollectionEnv) (proto : GeneratedNote) (s : GeneratedNoteSource)
        (flds : List String) (i : Nat) (r : List String × Nat),
        proto.source = some s →
        models_get env
            (if proto.note_type_id ≠ 0 then proto.note_type_id
              else env.effective_note_type_id) = some flds →
        first_index_with "source" flds = some i →
        create_note env proto = .ok r →
        r.1.getD i "" = format_source s)
  ∧ (∀ (flds noteFields : List String) (s : GeneratedNoteSource),
        first_index_with "source" flds = none →
        apply_source flds noteFields (some s) =
          noteFields.set (noteFields.length - 1)
            (strip (noteFields.getD (noteFields.length - 1) "" ++ "\n\n" ++ format_source s)))
  ∧ (∀ flds noteFields : List String, apply_source flds noteFields none = noteFields) := by
  refine ⟨?_, ?_, ?_⟩
  · intro env proto s flds i r hsrc hm hidx hok
    by_cases hnt : (if proto.note_type_id ≠ 0 then proto.note_type_id
        else env.effective_note_type_id) = 0
    · simp only [create_note, if_pos hnt] at hok
      exact absurd hok (by simp)
    · rw [create_note_ok env proto flds hnt hm] at hok
      injection hok with h
      rw [← h]
      dsimp only
      rw [hsrc]
      simp only [apply_source, assign_source_field]
      rw [hidx]
      dsimp only
      have hlt : i < (fill_slots flds (field_map proto.fields)).1.length := by
        rw [fill_slots_fst_length]
        exact first_index_with_lt _ _ _ hidx
      simp only [apply_overflow]
      by_cases hfm : (fill_slots flds (field_map proto.fields)).2.isEmpty = true
      · rw [if_pos hfm]
        exact getD_set_self _ i _ hlt
      · rw [if_neg hfm]
        cases hback : first_index_with "back" flds with
        | none =>
          dsimp only
          exact getD_set_self _ i _ hlt
        | some bi =>
          dsimp only
          have hbi_ne : bi ≠ i := by
            intro e
            have h1 := first_index_with_name "back" flds bi hback
            have h2 := first_index_with_name "source" flds i hidx
            rw [e, h2] at h1
            exact absurd h1 (by decide)
          by_cases hex : ((fill_slots flds (field_map proto.fields)).2.filterMap
              (fun p => if strip p.2 ≠ "" then some (strip p.2) else none)).isEmpty = true
          · rw [if_pos hex]
            exact getD_set_self _ i _ hlt
          · rw [if_neg hex]
            rw [getD_set_ne _ bi i _ hbi_ne]
            exact getD_set_self _ i _ hlt
  · intro flds noteFields s h
    simp only [apply_source, assign_source_field]
    rw [h]
  · intro flds noteFields
    rfl

/-- Witness for C3 as amended: a template with an explicit `Source` slot
receives the formatted title. -/
theorem c3_amended_witness :
    (["F", "T"] : List String).getD 1 "" = format_source ⟨"T", "", ""⟩ :=
  c3_amended.1 ⟨[(1, ["Front", "Source"])], 1, 5, 5⟩ ⟨[⟨"front", "F"⟩], some ⟨"T", "", ""⟩, 0, 0⟩
    ⟨"T", "", ""⟩ ["Front", "Source"] 1 (["F", "T"], 5) rfl rfl rfl rfl

/-- Counterexample to C4: the candidate leaves one unconsumed field whose
value is whitespace-only, and the template has a `back` slot holding the
matched value `" B "`.  The claim's if-and-only-if says overflow is
applied, which would at least replace the back value by its trimmed form
`"B"`; the code filters out whitespace-only extras first and leaves the
slot entirely untouched, still `" B "`. -/
theorem c4_counterexample :
    create_note ⟨[(1, ["back"])], 1, 5, 5⟩
        ⟨[⟨"back", " B "⟩, ⟨"extra", "  "⟩], none, 0, 0⟩ = .ok ([" B "], 5) ∧
      (" B " : String) ≠ "B" ∧ strip " B " = "B" :=
  ⟨rfl, by decide, rfl⟩

/-- C4 as amended: the overflow step changes the record if and only if a
`back` slot exists AND at least one unconsumed value is non-whitespace;
with no `back` slot, or no unconsumed field, or only whitespace
unconsumed values, the record is unchanged (unconsumed fields are
silently dropped); when it does apply, the back slot becomes the
blank-line join of the non-empty segments among the stripped existing
value and the blank-line join of the stripped non-empty extras; and
assembly never raises an error once the template id resolves, whatever
fields are left over. -/
theorem c4_amended :
    (∀ (flds noteFields : List String) (fm : List (String × String)),
        first_index_with "back" flds = none → apply_overflow flds noteFields fm = noteFields)
  ∧ (∀ flds noteFields : List String, apply_overflow flds noteFields [] = noteFields)
  ∧ (∀ (flds noteFields : List String) (fm : List (String × String)),
        fm.filterMap (fun p => if strip p.2 ≠ "" then some (strip p.2) else none) = [] →
        apply_overflow flds noteFields fm = noteFields)
  ∧ (∀ (flds noteFields : List String) (fm : List (String × String)) (bi : Nat)
        (e : String) (es : List String),
        first_index_with "back" flds = some bi →
        fm.filterMap (fun p => if strip p.2 ≠ "" then some (strip p.2) else none) = e :: es →
        apply_overflow flds noteFields fm =
          noteFields.set bi (String.intercalate "\n\n"
            (([strip (noteFields.getD bi ""),
                String.intercalate "\n\n" (e :: es)]).filter (· ≠ ""))))
  ∧ (∀ (env : CollectionEnv) (proto : GeneratedNote) (flds : List String),
        (if proto.note_type_id ≠ 0 then proto.note_type_id
          else env.effective_note_type_id) ≠ 0 →
        models_get env
            (if proto.note_type_id ≠ 0 then proto.note_type_id
              else env.effective_note_type_id) = some flds →
        ∃ r, create_note env proto = .ok r) := by
  refine ⟨?_, ?_, ?_, ?_, ?_⟩
  · intro flds noteFields fm h
    simp only [apply_overflow]
    by_cases hfm : fm.isEmpty = true
    · rw [if_pos hfm]
    · rw [if_neg hfm, h]
  · intro flds noteFields
    rfl
  · intro flds noteFields fm hex
    simp only [apply_overflow]
    by_cases hfm : fm.isEmpty = true
    · rw [if_pos hfm]
    · rw [if_neg hfm]
      cases hback : first_index_with "back" flds with
      | none => rfl
      | some bi =>
        dsimp only
        rw [hex]
        rfl
  · intro flds noteFields fm bi e es hback hex
    cases fm with
    | nil => exact absurd hex (by simp)
    | cons p fmrest =>
      simp only [apply_overflow]
      rw [if_neg (by simp), hback]
      dsimp only
      rw [hex]
      rw [if_neg (by simp)]
  · intro env proto flds hnt hm
    exact ⟨_, create_note_ok env proto flds hnt hm⟩

/-- Witness for C4 as amended: a template without a `back` slot drops an
unconsumed field without error. -/
theorem c4_amended_witness :
    apply_overflow ["front"] ["F"] [("x", "X")] = ["F"] :=
  c4_amended.1 ["front"] ["F"] [("x", "X")] rfl

/-- C5: `_format_source` emits the escaped excerpt first when present,
then the anchor of escaped url and escaped title when both are present,
else the escaped url alone, else the escaped title alone, the segments
joined by the `"<br>"` line-break marker; it returns the empty string
when excerpt, url and title are all absent. -/
theorem c5_format_source :
    ∀ s : GeneratedNoteSource,
      (s.excerpt = "" → s.url = "" → s.title = "" → format_source s = "")
      ∧ (s.url ≠ "" → s.title ≠ "" → format_source s =
          (if s.excerpt ≠ "" then escape s.excerpt ++ "<br>" else "") ++
            ("<a href=\"" ++ escape s.url ++ "\">" ++ escape s.title ++ "</a>"))
      ∧ (s.url ≠ "" → s.title = "" → format_source s =
          (if s.excerpt ≠ "" then escape s.excerpt ++ "<br>" else "") ++ escape s.url)
      ∧ (s.url = "" → s.title ≠ "" → format_source s =
          (if s.excerpt ≠ "" then escape s.excerpt ++ "<br>" else "") ++ escape s.title)
      ∧ (s.url = "" → s.title = "" → format_source s = escape s.excerpt) := by
  intro s
  refine ⟨?_, ?_, ?_, ?_, ?_⟩
  · intro he hu ht
    have hne : ¬ s.excerpt ≠ "" := fun hh => hh he
    have hnu : ¬ s.url ≠ "" := fun hh => hh hu
    have hnt : ¬ s.title ≠ "" := fun hh => hh ht
    simp only [format_source, if_neg hne, if_neg hnu, if_neg hnt]
    rfl
  · intro hu ht
    simp only [format_source, if_pos hu, if_pos ht]
    by_cases hex : s.excerpt ≠ ""
    · rw [if_pos hex, if_pos hex]
      simp only [List.nil_append, List.singleton_append]
      rw [intercalate_pair]
    · rw [if_neg hex, if_neg hex]
      simp only [List.nil_append]
      rw [intercalate_single, String.empty_append]
  · intro hu ht
    have hnt : ¬ s.title ≠ "" := fun hh => hh ht
    simp only [format_source, if_pos hu, if_neg hnt]
    by_cases hex : s.excerpt ≠ ""
    · rw [if_pos hex, if_pos hex]
      simp only [List.nil_append, List.singleton_append]
      rw [intercalate_pair]
    · rw [if_neg hex, if_neg hex]
      simp only [List.nil_append]
      rw [intercalate_single, String.empty_append]
  · intro hu ht
    have hnu : ¬ s.url ≠ "" := fun hh => hh hu
    simp only [format_source, if_neg hnu, if_pos ht]
    by_cases hex : s.excerpt ≠ ""
    · rw [if_pos hex, if_pos hex]
      simp only [List.nil_append, List.singleton_append]
      rw [intercalate_pair]
    · rw [if_neg hex, if_neg hex]
      simp only [List.nil_append]
      rw [intercalate_single, String.empty_append]
  · intro hu ht
    have hnu : ¬ s.url ≠ "" := fun hh => hh hu
    have hnt : ¬ s.title ≠ "" := fun hh => hh ht
    simp only [format_source, if_neg hnu, if_neg hnt]
    by_cases hex : s.excerpt ≠ ""
    · rw [if_pos hex]
      simp only [List.nil_append]
      rw [intercalate_single]
    · rw [if_neg hex]
      have he : s.excerpt = "" := not_not.mp hex
      rw [he]
      rfl

/-- Witness for C5 at the spec's own example `{url: "http://x", title: "X"}`. -/
theorem c5_format_source_witness :
    format_source ⟨"X", "http://x", ""⟩ = "<a href=\"http://x\">X</a>" := by
  have h := (c5_format_source ⟨"X", "http://x", ""⟩).2.1 (by decide) (by decide)
  simpa using h

/-- C6: the Batch Selector's deduplicated index list is strictly
descending (hence duplicate-free) and holds exactly the chosen indices;
request building skips indices at or beyond the candidate count; after a
successful submission exactly the submitted indices are removed by value,
the survivors keep their relative order (the result is the filterMap of
the surviving positions in increasing order, a sublist of the original
list), and the dense positions of the result are the reassigned
`original_index` values; the spec's concrete removal example holds. -/
theorem c6_batch_selector :
    (∀ indices : List Nat, (unique_indices indices).Pairwise (· > ·))
  ∧ (∀ (indices : List Nat) (i : Nat), i ∈ unique_indices indices ↔ i ∈ indices)
  ∧ (∀ (env : CollectionEnv) (notes : List GeneratedNote) (l : List Nat),
        build_requests env notes l =
          build_requests env notes (l.filter (fun i => decide (i < notes.length))))
  ∧ (∀ (idxs : List Nat) (notes : List GeneratedNote),
        on_add_success idxs notes =
          ((List.range notes.length).filter (fun i => decide (i ∉ idxs))).filterMap
            (fun i => notes.get? i))
  ∧ (∀ (idxs : List Nat) (notes : List GeneratedNote),
        (on_add_success idxs notes).Sublist notes)
  ∧ on_add_success [2, 0]
      [⟨[], none, 0, 0⟩, ⟨[⟨"b", "b"⟩], none, 0, 0⟩, ⟨[], none, 1, 1⟩] =
      [⟨[⟨"b", "b"⟩], none, 0, 0⟩] :=
  ⟨unique_indices_pairwise, mem_unique_indices, build_requests_filter, on_add_success_range,
    on_add_success_sublist, by decide⟩

/-- C7: if a selected, in-range candidate's own template id and the
dialog's effective template id both fail to resolve (unset or unknown to
the template directory), then the whole `_add_notes` call aborts with a
template error before any submission is attempted, and the live candidate
list is unchanged. -/
theorem c7_resolution_aborts :
    ∀ (env : CollectionEnv) (notes : List GeneratedNote) (indices : List Nat) (i : Nat)
      (proto : GeneratedNote),
      i ∈ indices → notes.get? i = some proto →
      (proto.note_type_id = 0 ∨ models_get env proto.note_type_id = none) →
      (env.effective_note_type_id = 0 ∨ models_get env env.effective_note_type_id = none) →
      (∃ e, (add_notes env notes indices).1 = .failed e) ∧
        (add_notes env notes indices).2 = notes := by
  intro env notes indices i proto hmem hget h1 h2
  have herr := create_note_error env proto h1 h2
  have hmemu : i ∈ unique_indices indices := (mem_unique_indices indices i).mpr hmem
  have hne : ¬ (unique_indices indices).isEmpty = true := by
    intro hemp
    rw [List.isEmpty_iff] at hemp
    rw [hemp] at hmemu
    exact absurd hmemu (by simp)
  obtain ⟨e, he⟩ := build_requests_error env notes i proto hget herr (unique_indices indices)
    hmemu
  constructor
  · refine ⟨e, ?_⟩
    simp only [add_notes]
    rw [if_neg hne, he]
  · simp only [add_notes]
    rw [if_neg hne, he]

/-- Witness for C7: one candidate with neither its own nor a default
template id, selected at index 0. -/
theorem c7_resolution_aborts_witness :
    (∃ e, (add_notes ⟨[], 0, 1, 1⟩ [⟨[], none, 0, 0⟩] [0]).1 = .failed e) ∧
      (add_notes ⟨[], 0, 1, 1⟩ [⟨[], none, 0, 0⟩] [0]).2 = [⟨[], none, 0, 0⟩] :=
  c7_resolution_aborts ⟨[], 0, 1, 1⟩ [⟨[], none, 0, 0⟩] [0] 0 ⟨[], none, 0, 0⟩
    (by decide) rfl (Or.inl rfl) (Or.inl rfl)

/-- C8: `_display_field` builds a lowered-name lookup in which the last
write per name wins, walks the preferred-name list in order and returns
the first present entry's value; when none of the preferred names is
present it falls back to the first field's value, or `""` for a fieldless
candidate; the spec's example candidate (`prompt`/`answer`) projects to
front `"P"` and back `"A"`. -/
theorem c8_display_field :
    (display_field [⟨"prompt", "P"⟩, ⟨"answer", "A"⟩] ["front", "question", "prompt"] = "P")
  ∧ (display_field [⟨"prompt", "P"⟩, ⟨"answer", "A"⟩] ["back", "answer", "response"] = "A")
  ∧ (∀ (fields : List GeneratedField) (n : String) (names : List String),
        display_field fields (n :: names) =
          match dict_get? (field_map fields) n with
          | some value => strip_html value
          | none => display_field fields names)
  ∧ (∀ (fields : List GeneratedField) (k : String),
        dict_get? (field_map fields) k =
          (fields.reverse.find? (fun g => lower g.name == k)).map (·.value))
  ∧ (∀ fields : List GeneratedField,
        display_field fields [] =
          match fields with
          | [] => ""
          | f :: _ => strip_html f.value) := by
  refine ⟨by decide, by decide, ?_, field_map_get?, ?_⟩
  · intro fields n names
    simp only [display_field, List.findSome?_cons]
    cases hv : dict_get? (field_map fields) n with
    | some v => rfl
    | none => rfl
  · intro fields
    cases fields with
    | nil => rfl
    | cons f rest => rfl

/-- C9: the model list shown per provider is deduplicated preserving
first occurrence (a sublist of the stripped inputs), each entry stripped
and non-empty, containing exactly the non-empty stripped input values;
the spec's example holds; on refresh the already-typed text is preserved
whenever it is non-blank, and when it is blank and the fetched list is
nonempty the first fetched model becomes the active value; the combo
items are exactly the deduplicated list. -/
theorem c9_model_cache :
    (unique_models ["a", " a ", "b", "a"] = ["a", "b"])
  ∧ (∀ source : List String, (unique_models source).Nodup)
  ∧ (∀ (source : List String) (x : String),
        x ∈ unique_models source ↔ x ≠ "" ∧ ∃ m ∈ source, x = strip m)
  ∧ (∀ source : List String, (unique_models source).Sublist (source.map strip))
  ∧ (∀ (models : List String) (current : String), strip current ≠ "" →
        (on_refresh_models_success models current).2 = current)
  ∧ (∀ (models : List String) (current : String), strip current = "" → models ≠ [] →
        (on_refresh_models_success models current).2 = models.headD "")
  ∧ (∀ (models : List String) (current : String),
        (on_refresh_models_success models current).1 = unique_models models) := by
  refine ⟨by decide, ?_, ?_, ?_, ?_, ?_, ?_⟩
  · intro source
    exact unique_models_loop_nodup source [] (by simp)
  · intro source x
    constructor
    · intro h
      rcases unique_models_loop_mem source [] x h with h | h
      · exact absurd h (by simp)
      · exact h
    · rintro ⟨hne, m, hm, he⟩
      exact unique_models_loop_complete source [] x hne (Or.inl ⟨m, hm, he⟩)
  · intro source
    have h := unique_models_loop_sublist source []
    simpa using h
  · intro models current h
    simp only [on_refresh_models_success]
    rw [if_neg (fun hc => h hc.1)]
  · intro models current h1 h2
    simp only [on_refresh_models_success]
    rw [if_pos ⟨h1, h2⟩]
  · intro models current
    rfl

/-- Witness for C9: a non-blank typed value survives a refresh; a blank
one adopts the first fetched model. -/
theorem c9_model_cache_witness :
    (on_refresh_models_success ["m1", "m2"] "typed").2 = "typed" ∧
      (on_refresh_models_success ["m1", "m2"] " ").2 = "m1" :=
  ⟨c9_model_cache.2.2.2.2.1 ["m1", "m2"] "typed" (by decide),
    c9_model_cache.2.2.2.2.2.1 ["m1", "m2"] " " (by decide) (by decide)⟩

/-- C10: an empty deduplicated selection makes `_add_notes` a no-op: no
record is assembled, no submission happens, and the candidate list is
returned unchanged. -/
theorem c10_empty_selection_noop :
    ∀ (env : CollectionEnv) (notes : List GeneratedNote) (indices : List Nat),
      unique_indices indices = [] → add_notes env notes indices = (.noop, notes) := by
  intro env notes indices h
  simp only [add_notes, h]
  rfl

/-- Witness for C10 at the literally empty selection. -/
theorem c10_empty_selection_noop_witness :
    add_notes ⟨[], 0, 0, 0⟩ [] [] = (.noop, []) :=
  c10_empty_selection_noop ⟨[], 0, 0, 0⟩ [] [] rfl
